import Mathlib

/-!
Verification of the file-access validation and tool logic of the mcp-demo
service (`src/main.py`, `src/agent.py`).

The Python functions are embedded shallowly:

* paths are `String`s; the POSIX `os.path` helpers the source calls
  (`expandvars`, `isabs`, `abspath`, `normpath`, `join`, `expanduser`) are
  translated from CPython's `posixpath` implementations;
* the process environment, HOME and the current working directory are an
  explicit `Env` record;
* the filesystem is an explicit map `String → FileKind`;
* `raise HTTPException(status_code=..., detail=...)` becomes
  `Except.error` of an `HTTPException` value carrying the same status code
  and detail string.
-/

namespace MCP

/-- The ambient process state `os` reads: `vars` is the process environment
as `os.path.expandvars` consults it, `home` is the value of `HOME` (assumed
set; the `pwd`-database fallback of `expanduser` for an unset `HOME` is not
modelled), `cwd` is `os.getcwd()`. -/
structure Env where
  vars : String → Option String
  home : String
  cwd : String

/-- `'\x7b'`, written via its code point to keep brace characters out of
literals. -/
def lbrace : Char := Char.ofNat 123

/-- `'\x7d'`. -/
def rbrace : Char := Char.ofNat 125

/-- `\w` with `re.ASCII`, the character class of `posixpath.expandvars`'s
variable names: `[A-Za-z0-9_]`. -/
def wordChar (c : Char) : Bool := c.isAlphanum || c = '_'

/-- Split a brace-delimited variable reference: the characters before the
first closing brace and the characters after it, or `none` when there is no
closing brace (then the regex of `expandvars` has no match here). -/
def breakBrace (l : List Char) : Option (List Char × List Char) :=
  if rbrace ∈ l then
    some (l.takeWhile (fun c => c ≠ rbrace), (l.dropWhile (fun c => c ≠ rbrace)).tail)
  else none

/-- `posixpath.expandvars`, fuelled so that the definition is structurally
recursive (each step consumes at least one input character, so fuel
`length + 1` is never exhausted): scan for `$name` (longest `\w+` run) or
a brace-delimited `$` reference; replace a defined variable by its value and
continue scanning after the substituted value, leave an undefined or
malformed reference in place. -/
def expandGo (e : String → Option String) : Nat → List Char → List Char
  | 0, l => l
  | _ + 1, [] => []
  | fuel + 1, c :: rest =>
    if c = '$' then
      match rest with
      | b :: r2 =>
        if b = lbrace then
          match breakBrace r2 with
          | some (nm, after) =>
            match e ⟨nm⟩ with
            | some v => v.data ++ expandGo e fuel after
            | none => '$' :: lbrace :: (nm ++ rbrace :: expandGo e fuel after)
          | none => '$' :: expandGo e fuel rest
        else
          let nm := rest.takeWhile wordChar
          if nm = [] then '$' :: expandGo e fuel rest
          else
            match e ⟨nm⟩ with
            | some v => v.data ++ expandGo e fuel (rest.dropWhile wordChar)
            | none => '$' :: (nm ++ expandGo e fuel (rest.dropWhile wordChar))
      | [] => ['$']
    else c :: expandGo e fuel rest

/-- `os.path.expandvars(s)` (src/main.py line 128). -/
def expandvars (e : String → Option String) (s : String) : String :=
  ⟨expandGo e (s.data.length + 1) s.data⟩

/-- Python `s.startswith(d)`. -/
def strStartsWith (s d : String) : Bool := List.isPrefixOf d.data s.data

/-- Python `s.endswith(d)`. -/
def strEndsWith (s d : String) : Bool := List.isSuffixOf d.data s.data

/-- `posixpath.isabs`: the path begins with a slash. -/
def isAbs (p : String) : Bool := strStartsWith p "/"

/-- Python `s.rstrip('/')` on character lists. -/
def rstripSlash (l : List Char) : List Char :=
  (l.reverse.dropWhile (fun c => c = '/')).reverse

/-- `posixpath.expanduser` for the `~`-forms the source uses (`~/Documents`
and the like): `HOME`, right-stripped of slashes, replaces the tilde; an
all-slash result collapses to the root. The `~user` form needs the `pwd`
database and is left unexpanded (no call site of the source uses it). -/
def expanduser (env : Env) (p : String) : String :=
  match p.data with
  | '~' :: rest =>
    if rest.head? = some '/' ∨ rest = [] then
      let uh := rstripSlash env.home.data
      if uh ++ rest = [] then ⟨['/']⟩ else ⟨uh ++ rest⟩
    else p
  | _ => p

/-- `s.split('/')` on character lists, as `posixpath.normpath` uses it. -/
def strSplitSlash : List Char → List (List Char)
  | [] => [[]]
  | c :: rest =>
    if c = '/' then [] :: strSplitSlash rest
    else
      match strSplitSlash rest with
      | h :: t => (c :: h) :: t
      | [] => [[c]]

/-- `'/'.join(comps)` on character lists. -/
def joinSlash : List (List Char) → List Char
  | [] => []
  | [c] => c
  | c :: rest => c ++ '/' :: joinSlash rest

/-- The `initial_slashes` computation of `posixpath.normpath`: 1 for a path
starting with one slash or three or more, 2 for exactly two (POSIX keeps a
double root). -/
def leadSlashes (s : List Char) : Nat :=
  if s.take 3 = ['/', '/', '/'] then 1
  else if s.take 2 = ['/', '/'] then 2
  else if s.take 1 = ['/'] then 1
  else 0

/-- The component `'..'`. -/
def dd : List Char := ['.', '.']

/-- The component loop of `posixpath.normpath`. `acc` is Python's
`new_comps` reversed (head = `new_comps[-1]`): empty and `'.'` components
are dropped; a component other than `'..'` is pushed; `'..'` is pushed when
the path is relative and the stack is empty or the top already is `'..'`,
pops a non-empty stack otherwise, and is dropped on an absolute path with an
empty stack. -/
def procComps (a : Bool) : List (List Char) → List (List Char) → List (List Char)
  | [], acc => acc.reverse
  | comp :: rest, acc =>
    if comp = [] ∨ comp = ['.'] then procComps a rest acc
    else if comp ≠ dd ∨ (a = false ∧ acc = []) ∨ acc.head? = some dd then
      procComps a rest (comp :: acc)
    else
      match acc with
      | _ :: acc2 => procComps a rest acc2
      | [] => procComps a rest acc

/-- `posixpath.normpath` on character lists. -/
def normpathL (s : List Char) : List Char :=
  if s = [] then ['.']
  else
    let k := leadSlashes s
    let comps := procComps (decide (0 < k)) (strSplitSlash s) []
    let out := List.replicate k '/' ++ joinSlash comps
    if out = [] then ['.'] else out

/-- `os.path.normpath` (src/main.py line 135). -/
def normpath (s : String) : String := ⟨normpathL s.data⟩

/-- `posixpath.join` for the two-argument calls `abspath` makes. -/
def joinP (a b : String) : String :=
  if isAbs b then b
  else if a = "" ∨ strEndsWith a "/" then ⟨a.data ++ b.data⟩
  else ⟨a.data ++ '/' :: b.data⟩

/-- `os.path.abspath` (src/main.py lines 132 and 161): join a relative path
onto the current working directory, then normalize. -/
def abspath (env : Env) (p : String) : String :=
  if isAbs p then normpath p else normpath (joinP env.cwd p)

/-- `raise HTTPException(status_code=..., detail=...)` payload (FastAPI). -/
structure HTTPException where
  status_code : Nat
  detail : String
deriving DecidableEq

/-- The `allowed_dirs` list built inside `normalize_path`
(src/main.py lines 138-143). -/
def allowed_dirs (env : Env) : List String :=
  [expanduser env "~/Documents",
   expanduser env "~/Downloads",
   expanduser env "~/Desktop",
   expanduser env "~/github"]

/-- The 403 raised by `normalize_path` (src/main.py lines 146-149). -/
def accessDeniedErr : HTTPException :=
  ⟨403, "File must be in Documents, Downloads, Desktop, or github directory"⟩

/-- The composite transformation `normalize_path` applies before its check
(src/main.py lines 128-135), in source order: environment-variable
expansion, absolutization against the current working directory when the
expanded path is not absolute, then lexical normalization. -/
def normalForm (env : Env) (p : String) : String :=
  let p1 := expandvars env.vars p
  let p2 := if isAbs p1 then p1 else abspath env p1
  normpath p2

/-- `normalize_path` (src/main.py lines 125-151): normalize, then accept
exactly when some entry of `allowed_dirs` is a string prefix of the
normalized path (`any(file_path.startswith(d) for d in allowed_dirs)`). -/
def normalize_path (env : Env) (file_path : String) : Except HTTPException String :=
  let fp := normalForm env file_path
  if (allowed_dirs env).any (fun d => strStartsWith fp d) then Except.ok fp
  else Except.error accessDeniedErr

/-- `ALLOWED_BASE_DIRS` (src/main.py lines 29-34): the same four
home-relative directories, built there with `str(Path.home() / d)`.
`Path.home()` is defined via `os.path.expanduser("~")`, so with `HOME` set
the entries coincide with the `expanduser("~/...")` forms used here. -/
def ALLOWED_BASE_DIRS (env : Env) : List String := allowed_dirs env

/-- Python `str.lower()`, modelled by per-character lowercasing (for the
ASCII data the counting claims are about the two agree; in particular `'r'`
arises only from `'r'` and `'R'`). -/
def pyLower (s : String) : String := ⟨s.data.map Char.toLower⟩

/-- `count_r` (src/main.py lines 211-213): `text.lower().count('r')`; for a
single-character needle Python's `str.count` is the number of positions
holding that character. -/
def count_r (text : String) : Nat := (pyLower text).data.count 'r'

/-- What a filesystem path refers to: nothing (`os.path.exists` false), a
non-regular-file entry such as a directory (`exists` true, `os.path.isfile`
false), or a regular file with the given byte contents. -/
inductive FileKind where
  | absent
  | directory
  | regular (bytes : List Nat)
deriving DecidableEq

/-- One code point of strict UTF-8 (what one iteration of CPython's
utf-8 decoder consumes): decode the sequence led by byte `b` with following
bytes `rest`; yield the character and the bytes after the sequence, or
`none` on any malformed sequence (bad lead byte, truncated sequence,
non-continuation byte, over-long form, surrogate, beyond U+10FFFF). -/
def utf8Step (b : Nat) (rest : List Nat) : Option (Char × List Nat) :=
  if b < 0x80 then some (Char.ofNat b, rest)
  else if b < 0xC2 then none
  else if b < 0xE0 then
    match rest with
    | b1 :: r =>
      if 0x80 ≤ b1 ∧ b1 < 0xC0 then
        some (Char.ofNat ((b - 0xC0) * 0x40 + (b1 - 0x80)), r)
      else none
    | [] => none
  else if b < 0xF0 then
    match rest with
    | b1 :: b2 :: r =>
      if ((0x80 ≤ b1 ∧ b1 < 0xC0) ∧ (0x80 ≤ b2 ∧ b2 < 0xC0)) ∧
          (0x800 ≤ (b - 0xE0) * 0x1000 + (b1 - 0x80) * 0x40 + (b2 - 0x80) ∧
            ((b - 0xE0) * 0x1000 + (b1 - 0x80) * 0x40 + (b2 - 0x80) < 0xD800 ∨
              0xDFFF < (b - 0xE0) * 0x1000 + (b1 - 0x80) * 0x40 + (b2 - 0x80))) then
        some (Char.ofNat ((b - 0xE0) * 0x1000 + (b1 - 0x80) * 0x40 + (b2 - 0x80)), r)
      else none
    | _ => none
  else if b < 0xF5 then
    match rest with
    | b1 :: b2 :: b3 :: r =>
      if ((0x80 ≤ b1 ∧ b1 < 0xC0) ∧ (0x80 ≤ b2 ∧ b2 < 0xC0) ∧ (0x80 ≤ b3 ∧ b3 < 0xC0)) ∧
          (0x10000 ≤ (b - 0xF0) * 0x40000 + (b1 - 0x80) * 0x1000 +
              (b2 - 0x80) * 0x40 + (b3 - 0x80) ∧
            (b - 0xF0) * 0x40000 + (b1 - 0x80) * 0x1000 +
              (b2 - 0x80) * 0x40 + (b3 - 0x80) ≤ 0x10FFFF) then
        some (Char.ofNat ((b - 0xF0) * 0x40000 + (b1 - 0x80) * 0x1000 +
          (b2 - 0x80) * 0x40 + (b3 - 0x80)), r)
      else none
    | _ => none
  else none

/-- The decode loop, fuelled for structural recursion: each step consumes
at least the lead byte, so fuel `bs.length` is never exhausted. -/
def utf8Go : Nat → List Nat → Option (List Char)
  | _, [] => some []
  | 0, _ :: _ => none
  | fuel + 1, b :: rest =>
    match utf8Step b rest with
    | some (c, r) => (utf8Go fuel r).map (fun cs => c :: cs)
    | none => none

/-- Python's `'utf-8'` codec in strict mode on a byte string. -/
def utf8DecodeL (bs : List Nat) : Option (List Char) := utf8Go bs.length bs

/-- Python's `'latin-1'` codec: every byte value 0..255 maps to the code
point of the same value, so decoding a byte string never fails. -/
def latin1DecodeL (bs : List Nat) : Option (List Char) :=
  some (bs.map (fun b => Char.ofNat b))

/-- The Windows-1252 value of a byte: bytes `80..9F` map through the
Windows table, every other byte to the code point of its own value. -/
def cp1252Map (b : Nat) : Nat :=
  if b = 0x80 then 0x20AC else if b = 0x82 then 0x201A
  else if b = 0x83 then 0x0192 else if b = 0x84 then 0x201E
  else if b = 0x85 then 0x2026 else if b = 0x86 then 0x2020
  else if b = 0x87 then 0x2021 else if b = 0x88 then 0x02C6
  else if b = 0x89 then 0x2030 else if b = 0x8A then 0x0160
  else if b = 0x8B then 0x2039 else if b = 0x8C then 0x0152
  else if b = 0x8E then 0x017D else if b = 0x91 then 0x2018
  else if b = 0x92 then 0x2019 else if b = 0x93 then 0x201C
  else if b = 0x94 then 0x201D else if b = 0x95 then 0x2022
  else if b = 0x96 then 0x2013 else if b = 0x97 then 0x2014
  else if b = 0x98 then 0x02DC else if b = 0x99 then 0x2122
  else if b = 0x9A then 0x0161 else if b = 0x9B then 0x203A
  else if b = 0x9C then 0x0153 else if b = 0x9E then 0x017E
  else if b = 0x9F then 0x0178 else b

/-- Python's `'cp1252'` codec on one byte: the five bytes left undefined by
Windows-1252 raise a decode error, the rest map through `cp1252Map`. -/
def cp1252Byte (b : Nat) : Option Char :=
  if b = 0x81 ∨ b = 0x8D ∨ b = 0x8F ∨ b = 0x90 ∨ b = 0x9D then none
  else some (Char.ofNat (cp1252Map b))

/-- Python's `'cp1252'` codec on a byte string. -/
def cp1252DecodeL (bs : List Nat) : Option (List Char) := bs.mapM cp1252Byte

/-- The ordered encoding list of `read_file` (src/main.py line 187). -/
def encodingNames : List String := ["utf-8", "latin-1", "cp1252"]

/-- The codec named `enc` applied to the file's bytes: the decoded
characters, or `none` like a `UnicodeDecodeError`. This is the pure
decoding step of a text-mode read; newline translation follows it. -/
def decodeWith (enc : String) (bs : List Nat) : Option (List Char) :=
  if enc = "utf-8" then utf8DecodeL bs
  else if enc = "latin-1" then latin1DecodeL bs
  else if enc = "cp1252" then cp1252DecodeL bs
  else none

/-- Universal-newline translation of CPython's text mode: `read_file`
opens with `open(abs_path, 'r', encoding=encoding)`, so `newline=None`
and, in the decoded text, `\r\n` and lone `\r` become `\n`. -/
def translateNewlines : List Char → List Char
  | [] => []
  | c :: rest =>
    if c = '\r' then
      match rest with
      | '\n' :: r2 => '\n' :: translateNewlines r2
      | r => '\n' :: translateNewlines r
    else c :: translateNewlines rest

/-- `content = open(abs_path, 'r', encoding=enc).read()` for one encoding
name: decode the file's bytes with the codec (a failure is the loop's
`UnicodeDecodeError`), then apply the text-mode newline translation. -/
def readTextWith (enc : String) (bs : List Nat) : Option (List Char) :=
  (decodeWith enc bs).map translateNewlines

/-- The `for encoding in encodings` loop of `read_file`
(src/main.py lines 186-195): the text read under the first encoding that
decodes without error, `none` when every encoding fails. -/
def tryEncodings (bs : List Nat) : Option String :=
  (encodingNames.findSome? (fun enc => readTextWith enc bs)).map (fun cs => ⟨cs⟩)

/-- The 403 of `read_file`'s own allowed-directory re-check
(src/main.py lines 165-170). -/
def notAllowedErr (fp : String) (dirs : List String) : HTTPException :=
  ⟨403, "Access to " ++ (fp ++ (" is not allowed. File must be in one of these directories:\n" ++
    String.intercalate "\n" dirs))⟩

/-- The 404 for a missing file (src/main.py lines 173-177). -/
def notFoundErr (fp : String) : HTTPException :=
  ⟨404, "File not found: " ++ (fp ++
    "\nPlease check:\n1. The file exists\n2. The path is correct\n3. You have permission to access it")⟩

/-- The 400 for a path that is not a regular file (src/main.py
lines 180-184). -/
def notAFileErr (fp : String) : HTTPException :=
  ⟨400, "Path is not a file: " ++ fp⟩

/-- The 400 raised when no encoding can decode the file
(src/main.py lines 197-200). -/
def undecodableErr (fp : String) : HTTPException :=
  ⟨400, "Could not read file " ++ (fp ++ " with any of the supported encodings")⟩

/-- Modelled from the spec: `is_path_allowed`, called at src/main.py
line 165, has no definition under src (only this caller); per the spec
(§3 AllowedDirectorySet, §4.1 step 4) it is the string-prefix test of the
path against the pre-normalized absolute allowed-directory entries. -/
def is_path_allowed (env : Env) (p : String) : Bool :=
  (ALLOWED_BASE_DIRS env).any (fun d => strStartsWith p d)

/-- `read_file` (src/main.py lines 153-209) over an explicit filesystem:
validate through `normalize_path` (its `HTTPException` propagates),
re-absolutize, re-check the allowed directories, then the `exists` check
(404), the `isfile` check (400), and the encoding loop. The final
`except Exception` → 500 catch-all has no counterpart here because the
embedding makes no other failure possible. -/
def read_file (env : Env) (fs : String → FileKind) (file_path0 : String) :
    Except HTTPException String :=
  match normalize_path env file_path0 with
  | Except.error e => Except.error e
  | Except.ok file_path =>
    let abs_path := abspath env file_path
    if is_path_allowed env abs_path then
      match fs abs_path with
      | FileKind.absent => Except.error (notFoundErr file_path)
      | FileKind.directory => Except.error (notAFileErr file_path)
      | FileKind.regular bytes =>
        match tryEncodings bytes with
        | some content => Except.ok content
        | none => Except.error (undecodableErr file_path)
    else Except.error (notAllowedErr file_path (ALLOWED_BASE_DIRS env))

/-- Whether a `read_file` outcome is the `UndecodableContent` failure:
an error whose detail is the line-197 message (it is the only detail
beginning `Could not read file`). -/
def isUndecodable : Except HTTPException String → Bool
  | Except.error e => List.isPrefixOf "Could not read file".data e.detail.data
  | Except.ok _ => false

/-- The success payload of the `/tools/...` endpoint (`AgentResponse`,
src/main.py lines 107-109), metadata as a key-value list. -/
structure AgentResponse where
  response : String
  metadata : List (String × String)
deriving DecidableEq

/-- `execute_tool` (src/main.py lines 252-282): dispatch on the tool name;
a missing parameter (`parameters.get(...)` returning `None`) and — because
Python's `if not file_path:` also holds for the empty string — an empty
parameter both raise the 400 `... parameter is required`; otherwise the
tool runs (tool `HTTPException`s propagate). -/
def execute_tool (env : Env) (fs : String → FileKind) (tool_name : String)
    (params : String → Option String) : Except HTTPException AgentResponse :=
  if tool_name = "read_file" then
    match params "file_path" with
    | some fp =>
      if fp = "" then Except.error ⟨400, "file_path parameter is required"⟩
      else (read_file env fs fp).map
        (fun r => ⟨r, [("status", "success"), ("tool", "read_file")]⟩)
    | none => Except.error ⟨400, "file_path parameter is required"⟩
  else if tool_name = "count_r" then
    match params "text" with
    | some t =>
      if t = "" then Except.error ⟨400, "text parameter is required"⟩
      else Except.ok ⟨toString (count_r t), [("status", "success"), ("tool", "count_r")]⟩
    | none => Except.error ⟨400, "text parameter is required"⟩
  else Except.error ⟨404, "Tool not found: " ++ tool_name⟩

/-- The agent object of `src/agent.py` once constructed: it stores the
credential. -/
structure MCPAgent where
  api_key : String
deriving DecidableEq

/-- `MCPAgent.__init__` (src/agent.py lines 6-10) as a fallible
constructor over the process environment: `os.getenv` yields `None` when
the variable is absent, and `if not self.api_key:` raises the `ValueError`
for `None` and for the empty string alike; otherwise the credential is
stored. -/
def mcpAgentInit (getenv : String → Option String) : Except String MCPAgent :=
  match getenv "OPENAI_API_KEY" with
  | none => Except.error "OPENAI_API_KEY environment variable not set"
  | some v =>
    if v = "" then Except.error "OPENAI_API_KEY environment variable not set"
    else Except.ok ⟨v⟩

/-! Concrete inputs used to instantiate the theorems below. -/

/-- A concrete ambient state: no variables set, `HOME` and the working
directory `/home/user`. -/
def env0 : Env := ⟨fun _ => none, "/home/user", "/home/user"⟩

/-- A filesystem on which every path is missing. -/
def fsAbsent : String → FileKind := fun _ => FileKind.absent

/-- A filesystem on which every path is a directory. -/
def fsDir : String → FileKind := fun _ => FileKind.directory

/-- A filesystem on which every path is a regular file holding the two
ASCII bytes of `"hi"`. -/
def fsHi : String → FileKind := fun _ => FileKind.regular [104, 105]

/-- A filesystem on which every path is a regular file holding the four
ASCII bytes `h`, CR, LF, `i`. -/
def fsCR : String → FileKind := fun _ => FileKind.regular [104, 13, 10, 105]

/-- A request parameter map carrying `file_path` as the empty string. -/
def paramsEmptyFile : String → Option String :=
  fun k => if k = "file_path" then some "" else none

/-- A request parameter map carrying `text` as the empty string. -/
def paramsEmptyText : String → Option String :=
  fun k => if k = "text" then some "" else none

/-- A process environment in which `OPENAI_API_KEY` is present but empty. -/
def getenvEmptyKey : String → Option String :=
  fun k => if k = "OPENAI_API_KEY" then some "" else none

/-- A process environment in which `OPENAI_API_KEY` is set to `sk-test`. -/
def getenvSetKey : String → Option String :=
  fun k => if k = "OPENAI_API_KEY" then some "sk-test" else none

/-! ## Helper lemmas -/

theorem normalize_path_error_eq {env : Env} {p : String} {e : HTTPException}
    (h : normalize_path env p = Except.error e) : e = accessDeniedErr := by
  by_cases hc : (allowed_dirs env).any (fun d => strStartsWith (normalForm env p) d) = true
  · simp [normalize_path, hc] at h
  · simp [normalize_path, hc] at h
    exact h.symm

theorem normalize_path_ok_iff {env : Env} {p : String} {s : String} :
    normalize_path env p = Except.ok s ↔
      ((allowed_dirs env).any (fun d => strStartsWith (normalForm env p) d) = true ∧
        s = normalForm env p) := by
  by_cases hc : (allowed_dirs env).any (fun d => strStartsWith (normalForm env p) d) = true
  · simp [normalize_path, hc, eq_comm]
  · simp [normalize_path, hc]

theorem tryEncodings_isSome (bs : List Nat) : (tryEncodings bs).isSome = true := by
  cases h : utf8DecodeL bs <;>
    simp [tryEncodings, encodingNames, List.findSome?, readTextWith, decodeWith,
      latin1DecodeL, h]

theorem read_file_of_err {env : Env} {fs : String → FileKind} {p : String} {e : HTTPException}
    (h : normalize_path env p = Except.error e) : read_file env fs p = Except.error e := by
  rw [read_file, h]

theorem read_file_of_ok {env : Env} {fs : String → FileKind} {p fp : String}
    (h : normalize_path env p = Except.ok fp) :
    read_file env fs p =
      (if is_path_allowed env (abspath env fp) = true then
        match fs (abspath env fp) with
        | FileKind.absent => Except.error (notFoundErr fp)
        | FileKind.directory => Except.error (notAFileErr fp)
        | FileKind.regular bytes =>
          match tryEncodings bytes with
          | some content => Except.ok content
          | none => Except.error (undecodableErr fp)
      else Except.error (notAllowedErr fp (ALLOWED_BASE_DIRS env))) := by
  rw [read_file, h]

theorem strSplitSlash_ne_nil (l : List Char) : strSplitSlash l ≠ [] := by
  induction l with
  | nil => simp [strSplitSlash]
  | cons c rest ih =>
    by_cases hc : c = '/'
    · simp [strSplitSlash, hc]
    · simp only [strSplitSlash, if_neg hc]
      cases hsp : strSplitSlash rest with
      | nil => exact absurd hsp ih
      | cons h t => simp

theorem mem_strSplitSlash_no_slash (l : List Char) :
    ∀ x ∈ strSplitSlash l, '/' ∉ x := by
  induction l with
  | nil => intro x hx; simp [strSplitSlash] at hx; simp [hx]
  | cons c rest ih =>
    intro x hx
    by_cases hc : c = '/'
    · simp only [strSplitSlash, if_pos hc] at hx
      rcases List.mem_cons.mp hx with h | h
      · simp [h]
      · exact ih x h
    · simp only [strSplitSlash, if_neg hc] at hx
      cases hsp : strSplitSlash rest with
      | nil => exact absurd hsp (strSplitSlash_ne_nil rest)
      | cons h t =>
        rw [hsp] at hx
        rcases List.mem_cons.mp hx with hh | hh
        · subst hh
          intro hmem
          rcases List.mem_cons.mp hmem with h1 | h1
          · exact hc h1.symm
          · exact ih h (by rw [hsp]; exact List.mem_cons_self h t) h1
        · exact ih x (by rw [hsp]; exact List.mem_cons_of_mem h hh)

theorem strSplitSlash_no_slash (c : List Char) (h : '/' ∉ c) : strSplitSlash c = [c] := by
  induction c with
  | nil => rfl
  | cons ch rest ih =>
    have hch : ch ≠ '/' := fun he => h (by rw [he]; exact List.mem_cons_self _ _)
    have hr : '/' ∉ rest := fun hm => h (List.mem_cons_of_mem ch hm)
    simp only [strSplitSlash, if_neg hch, ih hr]

theorem strSplitSlash_append_slash (c : List Char) (h : '/' ∉ c) (t : List Char) :
    strSplitSlash (c ++ '/' :: t) = c :: strSplitSlash t := by
  induction c with
  | nil => simp [strSplitSlash]
  | cons ch rest ih =>
    have hch : ch ≠ '/' := fun he => h (by rw [he]; exact List.mem_cons_self _ _)
    have hr : '/' ∉ rest := fun hm => h (List.mem_cons_of_mem ch hm)
    simp only [List.cons_append, strSplitSlash, if_neg hch, List.append_eq, ih hr]

theorem strSplitSlash_join (l : List (List Char)) (h : ∀ x ∈ l, '/' ∉ x) (hne : l ≠ []) :
    strSplitSlash (joinSlash l) = l := by
  induction l with
  | nil => exact absurd rfl hne
  | cons c cs ih =>
    cases cs with
    | nil =>
      show strSplitSlash (joinSlash [c]) = [c]
      rw [joinSlash]
      exact strSplitSlash_no_slash c (h c (List.mem_cons_self c []))
    | cons d ds =>
      show strSplitSlash (joinSlash (c :: d :: ds)) = c :: d :: ds
      rw [joinSlash, strSplitSlash_append_slash c (h c (List.mem_cons_self _ _)) _]
      rw [ih (fun x hx => h x (List.mem_cons_of_mem c hx)) (List.cons_ne_nil d ds)]
      exact fun hcon => absurd hcon (List.cons_ne_nil d ds)

theorem strSplitSlash_replicate (k : Nat) (t : List Char) :
    strSplitSlash (List.replicate k '/' ++ t) = List.replicate k [] ++ strSplitSlash t := by
  induction k with
  | zero => simp
  | succ n ih =>
    rw [List.replicate_succ, List.replicate_succ, List.cons_append, List.cons_append]
    simp [strSplitSlash, ih]

theorem procComps_skip_empties (a : Bool) (k : Nat) (l acc : List (List Char)) :
    procComps a (List.replicate k [] ++ l) acc = procComps a l acc := by
  induction k with
  | zero => simp
  | succ n ih =>
    rw [List.replicate_succ, List.cons_append]
    simp only [procComps, true_or, if_true]
    exact ih

theorem procComps_push_all (a : Bool) (r : List (List Char))
    (h : ∀ x ∈ r, ¬(x = [] ∨ x = ['.']) ∧ x ≠ dd) :
    ∀ acc, procComps a r acc = acc.reverse ++ r := by
  induction r with
  | nil => intro acc; simp [procComps]
  | cons c cs ih =>
    intro acc
    obtain ⟨hc1, hc2⟩ := h c (List.mem_cons_self c cs)
    simp only [procComps]
    rw [if_neg hc1, if_pos (Or.inl hc2),
      ih (fun x hx => h x (List.mem_cons_of_mem c hx)) (c :: acc)]
    simp

theorem procComps_dd_run (a : Bool) (r : List (List Char))
    (hr : ∀ x ∈ r, ¬(x = [] ∨ x = ['.']) ∧ x ≠ dd) :
    ∀ (m j : Nat), (a = true → m = 0) →
      procComps a (List.replicate m dd ++ r) (List.replicate j dd) =
        List.replicate (j + m) dd ++ r := by
  intro m
  induction m with
  | zero =>
    intro j _
    rw [List.replicate_zero, List.nil_append, procComps_push_all a r hr,
      List.reverse_replicate, Nat.add_zero]
  | succ n ih =>
    intro j ham
    have ha : a = false := by
      cases a
      · rfl
      · exact absurd (ham rfl) (Nat.succ_ne_zero n)
    rw [List.replicate_succ, List.cons_append]
    simp only [procComps]
    rw [if_neg (by decide : ¬(dd = [] ∨ dd = ['.']))]
    have hcond : dd ≠ dd ∨ (a = false ∧ List.replicate j dd = []) ∨
        (List.replicate j dd).head? = some dd := by
      cases j with
      | zero => exact Or.inr (Or.inl ⟨ha, rfl⟩)
      | succ jj => exact Or.inr (Or.inr (by rw [List.replicate_succ]; rfl))
    rw [if_pos hcond]
    have hrep : dd :: List.replicate j dd = List.replicate (j + 1) dd :=
      (List.replicate_succ dd j).symm
    have hn : a = true → n = 0 := by
      intro hh; rw [hh] at ha; exact absurd ha (by decide)
    rw [hrep, ih (j + 1) hn]
    have harith : j + 1 + n = j + (n + 1) := by omega
    rw [harith]

theorem procComps_id (a : Bool) (l : List (List Char))
    (h1 : ∀ x ∈ l, ¬(x = [] ∨ x = ['.']))
    (h2 : ∃ m r, l = List.replicate m dd ++ r ∧ dd ∉ r ∧ (a = true → m = 0)) :
    procComps a l [] = l := by
  obtain ⟨m, r, hl, hddr, ham⟩ := h2
  subst hl
  have hr : ∀ x ∈ r, ¬(x = [] ∨ x = ['.']) ∧ x ≠ dd := by
    intro x hx
    refine ⟨h1 x (List.mem_append.mpr (Or.inr hx)), ?_⟩
    intro he; rw [he] at hx; exact hddr hx
  have hrun := procComps_dd_run a r hr m 0 ham
  simpa using hrun

theorem procComps_spec (a : Bool) (l : List (List Char)) :
    ∀ acc : List (List Char),
      (∀ x ∈ l, '/' ∉ x) →
      (∀ x ∈ acc, ¬(x = [] ∨ x = ['.']) ∧ '/' ∉ x) →
      (∃ rr mm, acc = rr ++ List.replicate mm dd ∧ dd ∉ rr ∧ (a = true → mm = 0)) →
      (∀ x ∈ procComps a l acc, ¬(x = [] ∨ x = ['.']) ∧ '/' ∉ x) ∧
      (∃ m r, procComps a l acc = List.replicate m dd ++ r ∧ dd ∉ r ∧
        (a = true → m = 0)) := by
  induction l with
  | nil =>
    intro acc _ hacc hshape
    constructor
    · intro x hx
      exact hacc x (List.mem_reverse.mp (by simpa [procComps] using hx))
    · obtain ⟨rr, mm, hs, hdd, ham⟩ := hshape
      refine ⟨mm, rr.reverse, ?_, ?_, ham⟩
      · simp [procComps, hs, List.reverse_append, List.reverse_replicate]
      · simpa using hdd
  | cons comp rest ih =>
    intro acc hl hacc hshape
    have hlrest : ∀ x ∈ rest, '/' ∉ x := fun x hx => hl x (List.mem_cons_of_mem comp hx)
    by_cases hg1 : comp = [] ∨ comp = ['.']
    · simp only [procComps, if_pos hg1]
      exact ih acc hlrest hacc hshape
    · by_cases hg2 : comp ≠ dd ∨ (a = false ∧ acc = []) ∨ acc.head? = some dd
      · simp only [procComps, if_neg hg1, if_pos hg2]
        have hcomp_slash : '/' ∉ comp := hl comp (List.mem_cons_self comp rest)
        have hacc2 : ∀ x ∈ comp :: acc, ¬(x = [] ∨ x = ['.']) ∧ '/' ∉ x := by
          intro x hx
          rcases List.mem_cons.mp hx with h | h
          · subst h; exact ⟨hg1, hcomp_slash⟩
          · exact hacc x h
        obtain ⟨rr, mm, hs, hdd, ham⟩ := hshape
        by_cases hcd : comp = dd
        · subst hcd
          rcases hg2 with h | h | h
          · exact absurd rfl h
          · obtain ⟨haf, hae⟩ := h
            subst hae
            refine ih [dd] hlrest hacc2 ⟨[], 1, by simp [List.replicate], by simp, ?_⟩
            intro h2; rw [h2] at haf; exact absurd haf (by decide)
          · have hrr : rr = [] := by
              cases rr with
              | nil => rfl
              | cons y yr =>
                rw [hs, List.cons_append] at h
                simp only [List.head?] at h
                have hy : y = dd := by injection h
                rw [hy] at hdd
                exact absurd (List.mem_cons_self dd yr) hdd
            subst hrr
            rw [List.nil_append] at hs
            have haf : a = false := by
              cases a with
              | false => rfl
              | true =>
                rw [ham rfl] at hs
                rw [hs] at h
                simp at h
            refine ih (dd :: acc) hlrest hacc2 ⟨[], mm + 1, ?_, by simp, ?_⟩
            · rw [hs, List.nil_append, List.replicate_succ]
            · intro h2; rw [h2] at haf; exact absurd haf (by decide)
        · refine ih (comp :: acc) hlrest hacc2 ⟨comp :: rr, mm, ?_, ?_, ham⟩
          · rw [hs, List.cons_append]
          · intro hmem
            rcases List.mem_cons.mp hmem with h | h
            · exact hcd h.symm
            · exact hdd h
      · have hcd : comp = dd := by
          by_contra hne
          exact hg2 (Or.inl hne)
        have hhead : acc.head? ≠ some dd := fun hh => hg2 (Or.inr (Or.inr hh))
        simp only [procComps, if_neg hg1, if_neg hg2]
        obtain ⟨rr, mm, hs, hdd, ham⟩ := hshape
        cases hael : acc with
        | nil =>
          dsimp only
          exact ih [] hlrest (by intro x hx; cases hx) ⟨[], 0, by simp, by simp, fun _ => rfl⟩
        | cons x acc2 =>
          dsimp only
          rw [hael] at hs hacc hhead
          cases hrr : rr with
          | nil =>
            rw [hrr, List.nil_append] at hs
            cases mm with
            | zero => simp [List.replicate] at hs
            | succ m2 =>
              rw [List.replicate_succ] at hs
              have hx : x = dd := by injection hs
              exact absurd (by rw [hx]; rfl : (x :: acc2).head? = some dd) hhead
          | cons y yr =>
            rw [hrr, List.cons_append] at hs
            have hx : x = y := by injection hs
            have hacc2eq : acc2 = yr ++ List.replicate mm dd := by injection hs
            rw [hrr] at hdd
            refine ih acc2 hlrest ?_
              ⟨yr, mm, hacc2eq, fun hm => hdd (List.mem_cons_of_mem y hm), ham⟩
            intro z hz
            exact hacc z (List.mem_cons_of_mem x hz)

theorem leadSlashes_le_two (s : List Char) : leadSlashes s ≤ 2 := by
  unfold leadSlashes
  split
  · omega
  · split
    · omega
    · split <;> omega

theorem joinSlash_cons_head (ch : Char) (c2 : List Char) (cs : List (List Char)) :
    ∃ t, joinSlash ((ch :: c2) :: cs) = ch :: t := by
  cases cs with
  | nil => exact ⟨c2, rfl⟩
  | cons d ds => exact ⟨c2 ++ '/' :: joinSlash (d :: ds), rfl⟩

theorem leadSlashes_replicate_cons (k : Nat) (hk : k ≤ 2) (ch : Char) (hch : ch ≠ '/')
    (t : List Char) : leadSlashes (List.replicate k '/' ++ ch :: t) = k := by
  interval_cases k
  · simp [leadSlashes, hch]
  · simp [leadSlashes, List.replicate, hch]
  · simp [leadSlashes, List.replicate, hch]

theorem normpathL_idem (s : List Char) : normpathL (normpathL s) = normpathL s := by
  by_cases hs : s = []
  · subst hs
    decide
  · have hunf : normpathL s =
        (if List.replicate (leadSlashes s) '/' ++
            joinSlash (procComps (decide (0 < leadSlashes s)) (strSplitSlash s) []) = []
         then ['.']
         else List.replicate (leadSlashes s) '/' ++
            joinSlash (procComps (decide (0 < leadSlashes s)) (strSplitSlash s) [])) := by
      rw [normpathL, if_neg hs]
    have hspec := procComps_spec (decide (0 < leadSlashes s)) (strSplitSlash s) []
      (mem_strSplitSlash_no_slash s) (by intro x hx; cases hx)
      ⟨[], 0, by simp, by simp, fun _ => rfl⟩
    obtain ⟨helems, m, r, hshape, hddr, ham⟩ := hspec
    have hk2 : leadSlashes s ≤ 2 := leadSlashes_le_two s
    rw [hunf]
    cases hcomps : procComps (decide (0 < leadSlashes s)) (strSplitSlash s) [] with
    | nil =>
      have hk : leadSlashes s = 0 ∨ leadSlashes s = 1 ∨ leadSlashes s = 2 := by omega
      rcases hk with h0 | h0 | h0 <;> rw [h0] <;> decide
    | cons c cs =>
      have hcmem : c ∈ procComps (decide (0 < leadSlashes s)) (strSplitSlash s) [] := by
        rw [hcomps]; exact List.mem_cons_self c cs
      obtain ⟨hcne, hcslash⟩ := helems c hcmem
      obtain ⟨ch, c2, hc⟩ : ∃ ch c2, c = ch :: c2 := by
        cases c with
        | nil => exact absurd (Or.inl rfl) hcne
        | cons ch c2 => exact ⟨ch, c2, rfl⟩
      have hchs : ch ≠ '/' := by
        intro he
        exact hcslash (by rw [hc, he]; exact List.mem_cons_self _ _)
      obtain ⟨jt, hjoin⟩ : ∃ t2, joinSlash (c :: cs) = ch :: t2 := by
        rw [hc]; exact joinSlash_cons_head ch c2 cs
      have hne2 : List.replicate (leadSlashes s) '/' ++ ch :: jt ≠ [] := by simp
      rw [hjoin, if_neg hne2, normpathL, if_neg hne2]
      dsimp only
      rw [leadSlashes_replicate_cons (leadSlashes s) hk2 ch hchs jt]
      rw [← hjoin, strSplitSlash_replicate]
      rw [strSplitSlash_join (c :: cs) (fun x hx => (helems x (by rw [hcomps]; exact hx)).2)
        (List.cons_ne_nil c cs)]
      rw [procComps_skip_empties]
      rw [procComps_id (decide (0 < leadSlashes s)) (c :: cs)
        (fun x hx => (helems x (by rw [hcomps]; exact hx)).1)
        ⟨m, r, by rw [← hcomps, hshape], hddr, ham⟩]
      rw [hjoin, if_neg hne2]

theorem normpath_idem (s : String) : normpath (normpath s) = normpath s :=
  congrArg String.mk (normpathL_idem s.data)

theorem rstripSlash_decomp (l : List Char) :
    ∃ j, l = rstripSlash l ++ List.replicate j '/' := by
  refine ⟨(l.reverse.takeWhile (fun c => decide (c = '/'))).length, ?_⟩
  have hsplit := List.takeWhile_append_dropWhile (fun c => decide (c = '/')) l.reverse
  have h2 : (l.reverse.dropWhile (fun c => decide (c = '/'))).reverse ++
      (l.reverse.takeWhile (fun c => decide (c = '/'))).reverse = l := by
    rw [← List.reverse_append, hsplit, List.reverse_reverse]
  have hall : ∀ b ∈ (l.reverse.takeWhile (fun c => decide (c = '/'))).reverse, b = '/' := by
    intro b hb
    exact of_decide_eq_true
      (List.mem_takeWhile_imp (p := fun c => decide (c = '/')) (List.mem_reverse.mp hb))
  have hrep := List.eq_replicate_of_mem hall
  rw [List.length_reverse] at hrep
  rw [rstripSlash]
  conv_lhs => rw [← h2]
  rw [hrep]

theorem expanduser_slash (env : Env) (p : String) (tl : List Char)
    (hp : p.data = '~' :: '/' :: tl) :
    (expanduser env p).data = rstripSlash env.home.data ++ '/' :: tl := by
  unfold expanduser
  rw [hp]
  have hne : ¬ rstripSlash env.home.data ++ '/' :: tl = [] := by simp
  simp [hne]

theorem allowed_dirs_shape (env : Env) (d : String) (hd : d ∈ allowed_dirs env) :
    ∃ tl, d.data = rstripSlash env.home.data ++ '/' :: tl := by
  simp only [allowed_dirs, List.mem_cons, List.not_mem_nil, or_false] at hd
  rcases hd with h | h | h | h <;> subst h
  · exact ⟨"Documents".data, expanduser_slash env _ _ rfl⟩
  · exact ⟨"Downloads".data, expanduser_slash env _ _ rfl⟩
  · exact ⟨"Desktop".data, expanduser_slash env _ _ rfl⟩
  · exact ⟨"github".data, expanduser_slash env _ _ rfl⟩

theorem isAbs_data (s : String) : isAbs s = true ↔ ∃ t, s.data = '/' :: t := by
  constructor
  · intro h
    have hp : ('/' :: []) <+: s.data := by
      have := List.isPrefixOf_iff_prefix.mp h
      simpa using this
    obtain ⟨u, hu⟩ := hp
    exact ⟨u, hu.symm⟩
  · intro ⟨t, ht⟩
    show List.isPrefixOf "/".data s.data = true
    apply List.isPrefixOf_iff_prefix.mpr
    rw [ht]
    exact ⟨t, rfl⟩

theorem validated_abs_allowed {env : Env} {p s : String}
    (hhome : isAbs env.home = true) (hs : normalize_path env p = Except.ok s) :
    abspath env s = s ∧ is_path_allowed env s = true := by
  obtain ⟨hany, hsn⟩ := normalize_path_ok_iff.mp hs
  obtain ⟨d, hd, hpd⟩ := List.any_eq_true.mp hany
  rw [← hsn] at hpd
  obtain ⟨tl, hdd⟩ := allowed_dirs_shape env d hd
  have hdabs : ∃ dt, d.data = '/' :: dt := by
    obtain ⟨j, hdec⟩ := rstripSlash_decomp env.home.data
    obtain ⟨ht, hh⟩ := (isAbs_data env.home).mp hhome
    cases hu : rstripSlash env.home.data with
    | nil => exact ⟨tl, by rw [hdd, hu]; rfl⟩
    | cons x xs =>
      have hx : x = '/' := by
        rw [hu, List.cons_append] at hdec
        rw [hdec] at hh
        exact (List.cons.injEq _ _ _ _ ▸ hh).1
      refine ⟨xs ++ '/' :: tl, ?_⟩
      rw [hdd, hu, hx, List.cons_append]
  obtain ⟨dt, hddt⟩ := hdabs
  have hsabs : isAbs s = true := by
    obtain ⟨u, hu⟩ := List.isPrefixOf_iff_prefix.mp hpd
    refine (isAbs_data s).mpr ⟨dt ++ u, ?_⟩
    rw [← hu, hddt, List.cons_append]
  have hidem : normpath s = s := by
    rw [hsn]
    show normpath (normpath (if isAbs (expandvars env.vars p) = true then expandvars env.vars p
      else abspath env (expandvars env.vars p))) = _
    exact normpath_idem _
  refine ⟨?_, ?_⟩
  · rw [abspath, if_pos hsabs]
    exact hidem
  · exact List.any_eq_true.mpr ⟨d, hd, hpd⟩

set_option maxHeartbeats 1000000 in

theorem utf8Go_ascii (fuel : Nat) :
    ∀ bs : List Nat, bs.length ≤ fuel → (∀ b ∈ bs, b < 128) →
      utf8Go fuel bs = some (bs.map (fun b => Char.ofNat b)) := by
  induction fuel with
  | zero =>
    intro bs hlen _
    cases bs with
    | nil => rfl
    | cons b r => simp at hlen
  | succ n ih =>
    intro bs hlen h
    cases bs with
    | nil => rfl
    | cons b r =>
      have hb : b < 128 := h b (List.mem_cons_self b r)
      have hstep : utf8Step b r = some (Char.ofNat b, r) := by
        unfold utf8Step
        rw [if_pos hb]
      rw [utf8Go, hstep]
      dsimp only
      rw [ih r (by simpa using hlen) (fun x hx => h x (List.mem_cons_of_mem b hx))]
      rfl

theorem utf8_ascii (bs : List Nat) (h : ∀ b ∈ bs, b < 128) :
    utf8DecodeL bs = some (bs.map (fun b => Char.ofNat b)) :=
  utf8Go_ascii bs.length bs (Nat.le_refl _) h

theorem charOfNat_toNat (b : Nat) (h : b < 128) : (Char.ofNat b).toNat = b := by
  have hv : Nat.isValidChar b := Or.inl (by omega)
  unfold Char.ofNat
  rw [dif_pos hv]
  simp [Char.ofNatAux, Char.toNat, UInt32.toNat, BitVec.toNat_ofNatLt]

theorem charOfNat_ne_cr (b : Nat) (hb : b < 128) (hne : b ≠ 13) :
    Char.ofNat b ≠ '\r' := by
  intro he
  apply hne
  have h2 := charOfNat_toNat b hb
  rw [he] at h2
  simpa using h2.symm

theorem translateNewlines_no_cr (cs : List Char) (h : ∀ c ∈ cs, c ≠ '\r') :
    translateNewlines cs = cs := by
  induction cs with
  | nil => rfl
  | cons c rest ih =>
    have hc : c ≠ '\r' := h c (List.mem_cons_self c rest)
    rw [translateNewlines.eq_def]
    dsimp only
    rw [if_neg hc, ih (fun x hx => h x (List.mem_cons_of_mem c hx))]

/-! ## Claims -/

/-- C1: a raw path whose expanded, absolutized, normalized form
(`normalForm`) is prefixed by no entry of the allowed-directory set is
rejected by `normalize_path` with the 403 `AccessDenied`; and every path the
validator returns starts with one of the allowed-directory entries, both
sides as the validator normalizes them. -/
theorem c1_reject_outside_and_invariant :
    (∀ (env : Env) (p : String),
      (∀ d ∈ allowed_dirs env, strStartsWith (normalForm env p) d = false) →
        normalize_path env p = Except.error accessDeniedErr) ∧
    (∀ (env : Env) (p s : String), normalize_path env p = Except.ok s →
        ∃ d ∈ allowed_dirs env, strStartsWith s d = true) := by
  constructor
  · intro env p h
    have hany : (allowed_dirs env).any (fun d => strStartsWith (normalForm env p) d) = false :=
      List.any_eq_false.mpr (fun d hd => by simp [h d hd])
    simp [normalize_path, hany]
  · intro env p s h
    obtain ⟨hany, hs⟩ := normalize_path_ok_iff.mp h
    subst hs
    exact List.any_eq_true.mp hany

/-- C1 at a concrete input: `/etc/passwd` is under no allowed directory of
`env0` and is rejected. -/
theorem c1_witness : normalize_path env0 "/etc/passwd" = Except.error accessDeniedErr :=
  c1_reject_outside_and_invariant.1 env0 "/etc/passwd" (by decide)

/-- C2: a raw path whose expanded, absolutized, normalized form is prefixed
by some allowed-directory entry is accepted, and the value returned is
exactly that normalized string; the second conjunct spells out (by
definition) that `normalForm` is environment-variable expansion, then
absolutization against the current working directory when not absolute,
then lexical normalization — the prefix test follows them. -/
theorem c2_accept_returns_normalized (env : Env) (p : String)
    (h : ∃ d ∈ allowed_dirs env, strStartsWith (normalForm env p) d = true) :
    normalize_path env p = Except.ok (normalForm env p) ∧
    normalForm env p =
      normpath (if isAbs (expandvars env.vars p) then expandvars env.vars p
                else abspath env (expandvars env.vars p)) := by
  refine ⟨?_, rfl⟩
  have hany : (allowed_dirs env).any (fun d => strStartsWith (normalForm env p) d) = true :=
    List.any_eq_true.mpr h
  simp [normalize_path, hany]

/-- C2 at a concrete input: a file under `~/Documents` is accepted and
returned in normalized form. -/
theorem c2_witness :
    normalize_path env0 "/home/user/Documents/a.txt" =
      Except.ok (normalForm env0 "/home/user/Documents/a.txt") :=
  (c2_accept_returns_normalized env0 "/home/user/Documents/a.txt" (by decide)).1

/-- C3 (code behaviour at the failing input): with `HOME = /home/user` the
allowed set contains `/home/user/Documents`, yet the validator accepts
`/home/user/Documents2/secret.txt` — the raw `startswith` check matches the
entry without a path-separator boundary, so the claimed rejection does not
happen. -/
theorem c3_boundary_code_behaviour :
    allowed_dirs env0 =
      ["/home/user/Documents", "/home/user/Downloads",
       "/home/user/Desktop", "/home/user/github"] ∧
    normalize_path env0 "/home/user/Documents2/secret.txt" =
      Except.ok "/home/user/Documents2/secret.txt" :=
  ⟨rfl, rfl⟩

/-- C4: for a path the validator accepted (with `HOME` absolute, as the
spec's AllowedDirectorySet presumes), `read_file` answers the 404
`NotFound` when the path is absent from the filesystem and the 400
`NotAFile` when it exists but is not a regular file — exact equalities, so
neither case can surface the 500 catch-all; the absent case answering
`NotFound` (although such a path fails the regular-file test too) is the
existence check running first. -/
theorem c4_read_missing_and_nonfile (env : Env) (fs : String → FileKind) (p s : String)
    (hhome : isAbs env.home = true) (hs : normalize_path env p = Except.ok s) :
    ((fs s = FileKind.absent → read_file env fs p = Except.error (notFoundErr s)) ∧
     (fs s = FileKind.directory → read_file env fs p = Except.error (notAFileErr s))) ∧
    (notFoundErr s).status_code = 404 ∧ (notAFileErr s).status_code = 400 := by
  obtain ⟨habs, hallow⟩ := validated_abs_allowed hhome hs
  refine ⟨⟨fun h => ?_, fun h => ?_⟩, rfl, rfl⟩ <;>
    rw [read_file_of_ok hs, habs, if_pos hallow, h]

/-- C4 at a concrete input: a validated path that is missing from the
filesystem yields the 404. -/
theorem c4_witness :
    read_file env0 fsAbsent "/home/user/Documents/a.txt" =
      Except.error (notFoundErr "/home/user/Documents/a.txt") :=
  (c4_read_missing_and_nonfile env0 fsAbsent "/home/user/Documents/a.txt"
    "/home/user/Documents/a.txt" rfl rfl).1.1 rfl

/-- C5 counterexample: the file is opened in text mode, so CPython
translates newlines. For a validated regular file holding the ASCII bytes
`h`, CR, LF, `i` the program returns the text `h`, LF, `i`, whereas the
utf-8 decode of the file's bytes — the content the claim says is returned
exactly — is `h`, CR, LF, `i`; the two differ, and the bytes are within
the claim's all-ASCII hypothesis. -/
theorem c5_newline_counterexample :
    read_file env0 fsCR "/home/user/Documents/a.txt" = Except.ok "h\ni" ∧
    utf8DecodeL [104, 13, 10, 105] = some "h\r\ni".data ∧
    ("h\ni" : String) ≠ "h\r\ni" ∧ (∀ b ∈ [104, 13, 10, 105], b < 128) :=
  ⟨rfl, rfl, by decide, by decide⟩

/-- C5 as amended: for a validated path holding a regular file of ASCII
bytes, `read_file` succeeds with the file's bytes decoded by the first
encoding (utf-8, which succeeds on ASCII) and then newline-translated by
the text-mode read (CR and CRLF become LF); the returned text is exactly
the decoded bytes whenever the file holds no carriage return (byte 13). -/
theorem c5_read_ascii_translated (env : Env) (fs : String → FileKind) (p s : String)
    (bytes : List Nat) (hhome : isAbs env.home = true)
    (hs : normalize_path env p = Except.ok s)
    (hfile : fs s = FileKind.regular bytes) (hascii : ∀ b ∈ bytes, b < 128) :
    (read_file env fs p =
        Except.ok ⟨translateNewlines (bytes.map (fun b => Char.ofNat b))⟩ ∧
      utf8DecodeL bytes = some (bytes.map (fun b => Char.ofNat b))) ∧
    ((∀ b ∈ bytes, b ≠ 13) →
      read_file env fs p = Except.ok ⟨bytes.map (fun b => Char.ofNat b)⟩) := by
  have hdec := utf8_ascii bytes hascii
  have htry : tryEncodings bytes =
      some ⟨translateNewlines (bytes.map (fun b => Char.ofNat b))⟩ := by
    simp [tryEncodings, encodingNames, List.findSome?, readTextWith, decodeWith, hdec]
  obtain ⟨habs, hallow⟩ := validated_abs_allowed hhome hs
  have hread : read_file env fs p =
      Except.ok ⟨translateNewlines (bytes.map (fun b => Char.ofNat b))⟩ := by
    rw [read_file_of_ok hs, habs, if_pos hallow, hfile]
    dsimp only
    rw [htry]
  refine ⟨⟨hread, hdec⟩, fun hcr => ?_⟩
  rw [hread]
  exact congrArg (fun l => Except.ok (String.mk l))
    (translateNewlines_no_cr _ (fun c hc => by
      obtain ⟨b, hb, hbc⟩ := List.mem_map.mp hc
      rw [← hbc]
      exact charOfNat_ne_cr b (hascii b hb) (hcr b hb)))

/-- C5 amended, at a concrete input: a validated CR-free ASCII file (the
bytes of `hi`) reads back byte-exactly. -/
theorem c5_translated_witness :
    read_file env0 fsHi "/home/user/Documents/a.txt" =
      Except.ok ⟨[104, 105].map (fun b => Char.ofNat b)⟩ :=
  (c5_read_ascii_translated env0 fsHi "/home/user/Documents/a.txt"
    "/home/user/Documents/a.txt" [104, 105] rfl rfl rfl (by decide)).2 (by decide)

/-- C6: the `UndecodableContent` branch of `read_file` is unreachable: the
encoding loop always succeeds (latin-1, second in the list, decodes every
byte sequence), so no outcome of `read_file` carries the
`Could not read file ...` detail — `isUndecodable` recognizes exactly that
branch, as the second conjunct shows. -/
theorem c6_undecodable_unreachable :
    (∀ bs : List Nat, (tryEncodings bs).isSome = true) ∧
    (∀ fp : String, isUndecodable (Except.error (undecodableErr fp)) = true) ∧
    (∀ (env : Env) (fs : String → FileKind) (p : String),
      isUndecodable (read_file env fs p) = false) := by
  refine ⟨tryEncodings_isSome, fun fp => rfl, fun env fs p => ?_⟩
  cases hnp : normalize_path env p with
  | error e => rw [read_file_of_err hnp, normalize_path_error_eq hnp]; rfl
  | ok fp =>
    rw [read_file_of_ok hnp]
    by_cases hal : is_path_allowed env (abspath env fp) = true
    · rw [if_pos hal]
      cases hfs : fs (abspath env fp) with
      | absent => rfl
      | directory => rfl
      | regular bytes =>
        dsimp only
        cases htry : tryEncodings bytes with
        | some content => rfl
        | none => have h2 := tryEncodings_isSome bytes; rw [htry] at h2; simp at h2
    · rw [if_neg hal]; rfl

/-- C7: the character counter lowercases its input and counts `'r'`:
the three contract examples hold, and in general the result is the number
of positions of the lowercased string holding `'r'`. -/
theorem c7_count_r_contract :
    count_r "River" = 2 ∧ count_r "" = 0 ∧ count_r "RRrr" = 4 ∧
    ∀ t : String,
      count_r t = ((t.data.map Char.toLower).filter (fun c => c == 'r')).length := by
  refine ⟨by decide, by decide, by decide, fun t => ?_⟩
  simp [count_r, pyLower, List.count, List.countP_eq_length_filter]

/-- C8 counterexample: the claim says construction succeeds whenever the
credential is present in the environment; with `OPENAI_API_KEY` present but
equal to the empty string (`getenvEmptyKey`), construction fails instead
(`if not self.api_key:` treats the empty string like `None`). -/
theorem c8_counterexample :
    getenvEmptyKey "OPENAI_API_KEY" = some "" ∧
    mcpAgentInit getenvEmptyKey =
      Except.error "OPENAI_API_KEY environment variable not set" :=
  ⟨rfl, rfl⟩

/-- C8 as amended: construction fails with the `ValueError` message whenever
the credential is absent — or present but empty — and succeeds, storing the
credential, whenever it is present and non-empty; the check happens in the
constructor, not per request. -/
theorem c8_amended_startup_credential (getenv : String → Option String) :
    (getenv "OPENAI_API_KEY" = none →
      mcpAgentInit getenv = Except.error "OPENAI_API_KEY environment variable not set") ∧
    (getenv "OPENAI_API_KEY" = some "" →
      mcpAgentInit getenv = Except.error "OPENAI_API_KEY environment variable not set") ∧
    (∀ v, getenv "OPENAI_API_KEY" = some v → v ≠ "" →
      mcpAgentInit getenv = Except.ok ⟨v⟩) := by
  refine ⟨fun h => ?_, fun h => ?_, fun v h hv => ?_⟩ <;> simp [mcpAgentInit, h]
  exact hv

/-- C8 amended, at a concrete input: a set, non-empty credential is stored. -/
theorem c8_amended_witness : mcpAgentInit getenvSetKey = Except.ok ⟨"sk-test"⟩ :=
  (c8_amended_startup_credential getenvSetKey).2.2 "sk-test" rfl (by decide)

/-- C9: at the tool-execution endpoint a required parameter equal to the
empty string is handled like a missing one: the endpoint answers the 400
`... parameter is required` without invoking the tool, for any environment,
filesystem and parameter map. -/
theorem c9_empty_parameter_is_missing :
    (∀ (env : Env) (fs : String → FileKind) (params : String → Option String),
      params "file_path" = some "" →
        execute_tool env fs "read_file" params =
          Except.error ⟨400, "file_path parameter is required"⟩) ∧
    (∀ (env : Env) (fs : String → FileKind) (params : String → Option String),
      params "text" = some "" →
        execute_tool env fs "count_r" params =
          Except.error ⟨400, "text parameter is required"⟩) := by
  constructor <;> intro env fs params h <;> simp [execute_tool, h]

/-- C9 at concrete inputs: both tools, parameter present and empty. -/
theorem c9_witness :
    execute_tool env0 fsAbsent "read_file" paramsEmptyFile =
      Except.error ⟨400, "file_path parameter is required"⟩ ∧
    execute_tool env0 fsAbsent "count_r" paramsEmptyText =
      Except.error ⟨400, "text parameter is required"⟩ :=
  ⟨c9_empty_parameter_is_missing.1 env0 fsAbsent paramsEmptyFile rfl,
   c9_empty_parameter_is_missing.2 env0 fsAbsent paramsEmptyText rfl⟩

/-- C10: `count_r` is a monoid homomorphism from strings under
concatenation to naturals under addition, and is bounded by the length. -/
theorem c10_count_r_monoid_hom :
    count_r "" = 0 ∧
    (∀ a b : String, count_r (a ++ b) = count_r a + count_r b) ∧
    (∀ t : String, count_r t ≤ t.length) := by
  refine ⟨by decide, fun a b => ?_, fun t => ?_⟩
  · have hd : (a ++ b).data = a.data ++ b.data := String.data_append a b
    show ((a ++ b).data.map Char.toLower).count 'r' = _
    rw [hd, List.map_append, List.count_append]
    rfl
  · calc count_r t ≤ (t.data.map Char.toLower).length := List.count_le_length _ _
    _ = t.length := by rw [List.length_map]; rfl

end MCP
